import Mathlib

/-!
Verification of the de Bruijn assembler (debruijn.py).

This file gives a shallow embedding of the assembler's core functions —
k-mer extraction, graph mutation during bubble/tip resolution, the
best-path selection policy, and contig reconstruction — and proves or
refutes the specified properties about them.

Conventions of the embedding:
* Python strings are `List Char`; graph nodes are strings of length k-1.
* A graph is its node list together with its weighted directed edge list
  (networkx `DiGraph` stores a node set and weighted edges).
* Fallible Python code (calls that raise `StatisticsError`, `IndexError`,
  `ValueError`) is embedded with `Option`: `none` models an exception.
* Edge weights are k-mer counts (`ℕ`); averages are rationals (`ℚ`).
* The global seeded random source (`random.seed(9001)`; `randint`) is
  threaded explicitly: the value drawn by `randint(0, n-1)` is an extra
  argument `rand`, reduced modulo the list length to land in range.
-/

namespace DeBruijn

/-- Graph nodes: (k-1)-length strings, embedded as `List Char`. -/
abbrev Node := List Char

/-- A weighted directed graph (networkx `DiGraph`): node list plus edge
list; an edge is (source, target, weight). -/
structure Graph where
  nodes : List Node
  edges : List (Node × Node × ℕ)
deriving DecidableEq

/-- Source `cut_kmer(read, kmer_size)`:
`for i in range(0, len(read)-kmer_size+1): yield read[i:i+kmer_size]`.
Python's `range` is empty when `len(read)-kmer_size+1 <= 0`, so the bound
is computed in `ℤ` and clamped by `Int.toNat`. -/
def cut_kmer (read : List Char) (kmer_size : ℕ) : List (List Char) :=
  (List.range (((read.length : ℤ) - kmer_size + 1).toNat)).map
    (fun i => (read.drop i).take kmer_size)

/-- Source `graph.remove_nodes_from(ns)` (networkx): delete the listed
nodes and every edge incident to one of them; absent nodes are ignored. -/
def remove_nodes_from (g : Graph) (ns : List Node) : Graph :=
  { nodes := g.nodes.filter (fun v => decide (v ∉ ns)),
    edges := g.edges.filter (fun e => decide (e.1 ∉ ns ∧ e.2.1 ∉ ns)) }

/-- The slice of `path` that a `remove_paths` iteration feeds to
`remove_nodes_from`, per the two boolean flags: `path`, `path[:-1]`,
`path[1:]`, or `path[1:-1]`. -/
def removed_segment (path : List Node) (delete_entry_node delete_sink_node : Bool) :
    List Node :=
  match delete_entry_node, delete_sink_node with
  | true, true => path
  | true, false => path.dropLast
  | false, true => path.drop 1
  | false, false => (path.drop 1).dropLast

/-- Source `remove_paths(graph, path_list, delete_entry_node, delete_sink_node)`:
for each path in the list, remove the slice selected by the flags. -/
def remove_paths (g : Graph) (path_list : List (List Node))
    (delete_entry_node delete_sink_node : Bool) : Graph :=
  path_list.foldl
    (fun h p => remove_nodes_from h (removed_segment p delete_entry_node delete_sink_node))
    g

/-- Arithmetic mean, `statistics.mean`; only ever applied under a length
guard in this development. -/
def mean (data : List ℚ) : ℚ := data.sum / data.length

/-- Source `std(data) = statistics.stdev(data)`. `statistics.stdev` raises
`StatisticsError` when given fewer than two data points, embedded as
`none`. `stdev` is the square root of the sample variance; since the code
only ever compares the result with `0` and the square root is zero exactly
on zero, the embedding returns the sample variance itself
(`stdev data > 0` iff `std data > 0` here). -/
def std (data : List ℚ) : Option ℚ :=
  if 2 ≤ data.length then
    some ((data.map (fun x => (x - mean data) ^ 2)).sum / ((data.length : ℚ) - 1))
  else none

/-- Source `select_best_path(graph, path_list, path_length, weight_avg_list,
delete_entry_node=False, delete_sink_node=False)`:

* `if std(weight_avg_list) > 0`: `best_index` is the first index of the
  maximum average weight; `del path_list[best_index]` drops that path from
  the list, and `remove_paths` is applied to the remaining paths;
* `elif std(path_length) > 0`: same with the first index of the maximum
  length;
* `else`: `best_index = randint(0, len(path_list)-1)`; the value the
  seeded global generator produces is threaded in as `rand`, reduced
  modulo the list length (`randint` raises `ValueError` when the list is
  empty, hence `none` in that case).

`none` models the exceptions the call can raise: `StatisticsError` from
`std` on fewer than two data points, `IndexError` from `del` when the
index is out of range. -/
def select_best_path (rand : ℕ) (g : Graph) (path_list : List (List Node))
    (path_length : List ℕ) (weight_avg_list : List ℚ)
    (delete_entry_node delete_sink_node : Bool) : Option Graph :=
  match std weight_avg_list with
  | none => none
  | some s =>
    if 0 < s then
      match weight_avg_list.max? with
      | none => none
      | some m =>
        if weight_avg_list.indexOf m < path_list.length then
          some (remove_paths g (path_list.eraseIdx (weight_avg_list.indexOf m))
            delete_entry_node delete_sink_node)
        else none
    else
      match std (path_length.map (fun n => (n : ℚ))) with
      | none => none
      | some t =>
        if 0 < t then
          match path_length.max? with
          | none => none
          | some m =>
            if path_length.indexOf m < path_list.length then
              some (remove_paths g (path_list.eraseIdx (path_length.indexOf m))
                delete_entry_node delete_sink_node)
            else none
        else
          if path_list.length = 0 then none
          else
            some (remove_paths g (path_list.eraseIdx (rand % path_list.length))
              delete_entry_node delete_sink_node)

/-- Source `graph.subgraph(path)` (networkx): the subgraph induced on the
given nodes — the nodes of the graph among them, and the edges whose two
endpoints both lie among them. -/
def subgraph (g : Graph) (ns : List Node) : Graph :=
  { nodes := g.nodes.filter (fun v => decide (v ∈ ns)),
    edges := g.edges.filter (fun e => decide (e.1 ∈ ns ∧ e.2.1 ∈ ns)) }

/-- Source `path_average_weight(graph, path)`: `statistics.mean` of the
weights of the edges of the subgraph induced by the path's nodes.
`statistics.mean` raises `StatisticsError` on an empty sequence, embedded
as `none`. -/
def path_average_weight (g : Graph) (path : List Node) : Option ℚ :=
  let ws := (subgraph g path).edges.map (fun e => (e.2.2 : ℚ))
  if ws.length = 0 then none else some (mean ws)

/-- Source `solve_bubble(graph, ancestor_node, descendant_node)`: its first
statement reads the undefined name `graphe`, so every call raises
`NameError` before touching the graph; embedded as unconditional failure. -/
def solve_bubble (g : Graph) (ancestor_node descendant_node : Node) : Option Graph :=
  none

/-- Source `simplify_bubbles(graph)`: the body is the single statement
`pass` — no mutation is performed on the graph (the Python function
returns `None`; the graph object is left exactly as it was given). -/
def simplify_bubbles (g : Graph) : Graph := g

/-- Source `solve_entry_tips(graph, starting_nodes)`: the body is `pass` —
no mutation is performed. -/
def solve_entry_tips (g : Graph) (starting_nodes : List Node) : Graph := g

/-- Source `solve_out_tips(graph, ending_nodes)`: the body is `pass` — no
mutation is performed. -/
def solve_out_tips (g : Graph) (ending_nodes : List Node) : Graph := g

/-- Successors of a node: targets of the edges leaving it (networkx
`graph.successors`). -/
def successors (g : Graph) (u : Node) : List Node :=
  (g.edges.filter (fun e => decide (e.1 = u))).map (fun e => e.2.1)

/-- Predecessors of a node: sources of the edges entering it (networkx
`graph.predecessors`). -/
def predecessors (g : Graph) (u : Node) : List Node :=
  (g.edges.filter (fun e => decide (e.2.1 = u))).map (fun e => e.1)

/-- Source `get_starting_nodes(graph)`: the nodes with no predecessors, in
node-list order. -/
def get_starting_nodes (g : Graph) : List Node :=
  g.nodes.filter (fun n => decide ((predecessors g n).length = 0))

/-- Source `get_sink_nodes(graph)`: the nodes with no successors, in
node-list order. -/
def get_sink_nodes (g : Graph) : List Node :=
  g.nodes.filter (fun n => decide ((successors g n).length = 0))

/-- Depth-first enumeration of the simple paths from `u` to `target` that
avoid `visited`, as `nx.all_simple_paths` performs it: children already on
the current path are skipped. `fuel` bounds the recursion depth; a simple
path visits each node at most once, so `|nodes| + 1` fuel is enough. -/
def simple_paths_from (g : Graph) (target : Node) :
    ℕ → Node → List Node → List (List Node)
  | 0, _, _ => []
  | fuel + 1, u, visited =>
    if u = target then [[u]]
    else
      ((successors g u).filter (fun v => decide (v ∉ u :: visited))).flatMap
        (fun v => (simple_paths_from g target fuel v (u :: visited)).map
          (fun p => u :: p))

/-- Source `nx.all_simple_paths(graph, source, target)`: every simple path
from `source` to `target`. -/
def all_simple_paths (g : Graph) (source target : Node) : List (List Node) :=
  simple_paths_from g target (g.nodes.length + 1) source []

/-- Source `nx.has_path(graph, source, target)`: whether `target` is
reachable from `source`; a node reaches another exactly when some simple
path joins them. -/
def has_path (g : Graph) (source target : Node) : Bool :=
  decide (all_simple_paths g source target ≠ [])

/-- Loop `for i in range(1, len(n)): contig += n[i][-1]` of `get_contigs`:
extend the contig with the last character of each subsequent node.
`kmer[-1]` raises `IndexError` on an empty string, embedded as `none`. -/
def extend_contig : List Char → List Node → Option (List Char)
  | contig, [] => some contig
  | contig, kmer :: rest =>
    match kmer.getLast? with
    | none => none
    | some ch => extend_contig (contig ++ [ch]) rest

/-- Contig reconstruction of `get_contigs` for one simple path: start from
the first node's full text (`contig = n[0]`, `IndexError` on an empty
path) and append the last character of every subsequent node. -/
def contig_of_path : List Node → Option (List Char)
  | [] => none
  | first :: rest => extend_contig first rest

/-- Loop `for n in nx.all_simple_paths(...)` of `get_contigs`: one
`[contig, len(contig)]` entry per enumerated simple path. -/
def contigs_of_paths : List (List Node) → Option (List (List Char × ℕ))
  | [] => some []
  | p :: ps =>
    match contig_of_path p, contigs_of_paths ps with
    | some c, some rest => some ((c, c.length) :: rest)
    | _, _ => none

/-- Inner loop of `get_contigs` over `ending_nodes` for a fixed start
node. `if nx.has_path(graph, st_node, en_node) is False: break` abandons
the WHOLE remaining sink list for this start node, so an unreachable sink
yields `some []` for itself and everything after it. -/
def sink_scan (g : Graph) (st_node : Node) : List Node → Option (List (List Char × ℕ))
  | [] => some []
  | en_node :: rest =>
    if has_path g st_node en_node then
      match contigs_of_paths (all_simple_paths g st_node en_node),
        sink_scan g st_node rest with
      | some cs, some more => some (cs ++ more)
      | _, _ => none
    else some []

/-- Outer loop of `get_contigs` over `starting_nodes`: concatenate each
start node's contribution. -/
def start_scan (g : Graph) (ending_nodes : List Node) :
    List Node → Option (List (List Char × ℕ))
  | [] => some []
  | st_node :: rest =>
    match sink_scan g st_node ending_nodes, start_scan g ending_nodes rest with
    | some a, some b => some (a ++ b)
    | _, _ => none

/-- Source `get_contigs(graph, starting_nodes, ending_nodes)`: for every
start node and every sink node (subject to the `break` above), one
`(contig, length)` pair per simple path between them. -/
def get_contigs (g : Graph) (starting_nodes ending_nodes : List Node) :
    Option (List (List Char × ℕ)) :=
  start_scan g ending_nodes starting_nodes

/-- Whether the graph has a directed edge from `u` to `v` (of any weight). -/
def has_edge (g : Graph) (u v : Node) : Bool :=
  g.edges.any (fun e => decide (e.1 = u) && decide (e.2.1 = v))

/-- A nonempty node sequence is a path of the graph when every node
belongs to the graph and every consecutive pair is joined by an edge. -/
def is_path (g : Graph) : List Node → Bool
  | [] => false
  | [u] => decide (u ∈ g.nodes)
  | u :: v :: rest => decide (u ∈ g.nodes) && has_edge g u v && is_path g (v :: rest)

/-- Bubble whose lower-weight branch is the single edge A→B: candidates
between A and B are the direct path [A,B] (average weight 1) and the path
[A,C,B] (average weight 5). -/
def gDirect : Graph :=
  ⟨[['A'], ['B'], ['C']],
   [(['A'], ['B'], 1), (['A'], ['C'], 5), (['C'], ['B'], 5)]⟩

/-- Bubble with two interior-disjoint branches of equal length and equal
weight between A and B: [A,X,B] and [A,Y,B]. -/
def gTwoPaths : Graph :=
  ⟨[['A'], ['X'], ['Y'], ['B']],
   [(['A'], ['X'], 1), (['X'], ['B'], 1), (['A'], ['Y'], 1), (['Y'], ['B'], 1)]⟩

/-- Bubble between A and D with branches A→B→D (weight 2) and A→C→D
(weight 1). -/
def gBubble : Graph :=
  ⟨[['A'], ['B'], ['C'], ['D']],
   [(['A'], ['B'], 2), (['B'], ['D'], 2), (['A'], ['C'], 1), (['C'], ['D'], 1)]⟩

/-- Entry tip: main chain S→A→B carries weight 10, while the in-degree-0
node T hangs off it by the single edge T→A of weight 1. -/
def gTip : Graph :=
  ⟨[['S'], ['A'], ['B'], ['T']],
   [(['S'], ['A'], 10), (['A'], ['B'], 10), (['T'], ['A'], 1)]⟩

/-- Two disconnected components S→B and X→A, so that the start/sink pair
(S, A) has no path while (S, B) does; the sink list enumerates A before
B. -/
def gBreak : Graph :=
  ⟨[['S'], ['X'], ['A'], ['B']], [(['S'], ['B'], 1), (['X'], ['A'], 1)]⟩

lemma mem_remove_nodes_from {g : Graph} {ns : List Node} {x : Node} :
    x ∈ (remove_nodes_from g ns).nodes ↔ x ∈ g.nodes ∧ x ∉ ns := by
  simp [remove_nodes_from, List.mem_filter]

lemma edge_mem_remove_nodes_from {g : Graph} {ns : List Node} {e : Node × Node × ℕ} :
    e ∈ (remove_nodes_from g ns).edges ↔ e ∈ g.edges ∧ e.1 ∉ ns ∧ e.2.1 ∉ ns := by
  simp [remove_nodes_from, List.mem_filter]

lemma remove_paths_nil (g : Graph) (de ds : Bool) : remove_paths g [] de ds = g := rfl

lemma remove_paths_cons (g : Graph) (p : List Node) (l : List (List Node)) (de ds : Bool) :
    remove_paths g (p :: l) de ds
      = remove_paths (remove_nodes_from g (removed_segment p de ds)) l de ds := rfl

/-- Membership in the node set after `remove_paths`: a node survives iff
it was present and lies in no removed slice. -/
lemma mem_remove_paths {g : Graph} {l : List (List Node)} {de ds : Bool} {x : Node} :
    x ∈ (remove_paths g l de ds).nodes
      ↔ x ∈ g.nodes ∧ ∀ q ∈ l, x ∉ removed_segment q de ds := by
  induction l generalizing g with
  | nil => simp [remove_paths_nil]
  | cons p l ih =>
    rw [remove_paths_cons, ih, mem_remove_nodes_from]
    constructor
    · rintro ⟨⟨hg, hp⟩, hrest⟩
      refine ⟨hg, ?_⟩
      intro q hq
      rcases List.mem_cons.mp hq with rfl | hq'
      · exact hp
      · exact hrest q hq'
    · rintro ⟨hg, hall⟩
      exact ⟨⟨hg, hall p (List.mem_cons_self p l)⟩, fun q hq => hall q (List.mem_cons_of_mem p hq)⟩

/-- Membership in the edge set after `remove_paths`: an edge survives iff
it was present and neither endpoint lies in a removed slice. -/
lemma edge_mem_remove_paths {g : Graph} {l : List (List Node)} {de ds : Bool}
    {e : Node × Node × ℕ} :
    e ∈ (remove_paths g l de ds).edges
      ↔ e ∈ g.edges ∧ ∀ q ∈ l,
          e.1 ∉ removed_segment q de ds ∧ e.2.1 ∉ removed_segment q de ds := by
  induction l generalizing g with
  | nil => simp [remove_paths_nil]
  | cons p l ih =>
    rw [remove_paths_cons, ih, edge_mem_remove_nodes_from]
    constructor
    · rintro ⟨⟨hg, h1, h2⟩, hrest⟩
      refine ⟨hg, ?_⟩
      intro q hq
      rcases List.mem_cons.mp hq with rfl | hq'
      · exact ⟨h1, h2⟩
      · exact hrest q hq'
    · rintro ⟨hg, hall⟩
      refine ⟨⟨hg, (hall p (List.mem_cons_self p l)).1, (hall p (List.mem_cons_self p l)).2⟩, ?_⟩
      exact fun q hq => hall q (List.mem_cons_of_mem p hq)

lemma has_edge_iff {g : Graph} {u v : Node} :
    has_edge g u v = true ↔ ∃ w, (u, v, w) ∈ g.edges := by
  simp only [has_edge, List.any_eq_true, Bool.and_eq_true, decide_eq_true_eq]
  constructor
  · rintro ⟨⟨a, b, w⟩, he, h1, h2⟩
    dsimp at h1 h2
    subst h1; subst h2
    exact ⟨w, he⟩
  · rintro ⟨w, hw⟩
    exact ⟨(u, v, w), hw, rfl, rfl⟩

lemma nodes_of_is_path {g : Graph} {p : List Node} (h : is_path g p = true) :
    ∀ x ∈ p, x ∈ g.nodes := by
  induction p with
  | nil => simp [is_path] at h
  | cons u rest ih =>
    cases rest with
    | nil =>
      simp only [is_path, decide_eq_true_eq] at h
      intro x hx
      rcases List.mem_singleton.mp hx with rfl
      exact h
    | cons v rest' =>
      simp only [is_path, Bool.and_eq_true, decide_eq_true_eq] at h
      intro x hx
      rcases List.mem_cons.mp hx with rfl | hx'
      · exact h.1.1
      · exact ih h.2 x hx'

lemma is_path_eq_false_of_missing_node {g : Graph} {q : List Node} {x : Node}
    (hx : x ∈ q) (hnot : x ∉ g.nodes) : is_path g q = false := by
  cases h : is_path g q with
  | false => rfl
  | true => exact absurd (nodes_of_is_path h x hx) hnot

/-- A path of `g` all of whose nodes avoid every removed slice is still a
path after `remove_paths`. -/
lemma is_path_remove_paths {g : Graph} {l : List (List Node)} {de ds : Bool}
    {p : List Node} (hp : is_path g p = true)
    (hkeep : ∀ x ∈ p, ∀ q ∈ l, x ∉ removed_segment q de ds) :
    is_path (remove_paths g l de ds) p = true := by
  induction p with
  | nil => simp [is_path] at hp
  | cons u rest ih =>
    cases rest with
    | nil =>
      simp only [is_path, decide_eq_true_eq] at hp ⊢
      exact mem_remove_paths.mpr ⟨hp, hkeep u (List.mem_singleton_self u)⟩
    | cons v rest' =>
      simp only [is_path, Bool.and_eq_true, decide_eq_true_eq] at hp ⊢
      obtain ⟨⟨hu, he⟩, hrec⟩ := hp
      refine ⟨⟨mem_remove_paths.mpr ⟨hu, hkeep u (List.mem_cons_self u _)⟩, ?_⟩, ?_⟩
      · obtain ⟨w, hw⟩ := has_edge_iff.mp he
        refine has_edge_iff.mpr ⟨w, edge_mem_remove_paths.mpr ⟨hw, fun q hq => ?_⟩⟩
        exact ⟨hkeep u (List.mem_cons_self u _) q hq,
          hkeep v (List.mem_cons_of_mem u (List.mem_cons_self v _)) q hq⟩
      · exact ih hrec (fun x hx => hkeep x (List.mem_cons_of_mem u hx))

lemma head_not_mem_drop_one {q : List Node} {a : Node}
    (hn : q.Nodup) (ha : q.head? = some a) : a ∉ q.drop 1 := by
  cases q with
  | nil => simp at ha
  | cons x t =>
    obtain rfl : x = a := by simpa using ha
    simpa using (List.nodup_cons.mp hn).1

lemma getLast_not_mem_dropLast {q : List Node} {b : Node}
    (hn : q.Nodup) (hb : q.getLast? = some b) : b ∉ q.dropLast := by
  have hne : q ≠ [] := by rintro rfl; simp at hb
  have hb' : q.getLast hne = b := by
    rw [List.getLast?_eq_getLast q hne] at hb
    exact Option.some.inj hb
  have hq : q.dropLast ++ [q.getLast hne] = q := List.dropLast_append_getLast hne
  rw [← hq] at hn
  rw [List.nodup_append] at hn
  intro hmem
  exact hn.2.2 hmem (by simp [hb'])

lemma interior_eq_dropLast_drop (q : List Node) :
    (q.drop 1).dropLast = q.dropLast.drop 1 := by
  rw [List.dropLast_eq_take, List.dropLast_eq_take, List.drop_take, List.length_drop]

lemma interior_subset_drop_one (q : List Node) : (q.drop 1).dropLast ⊆ q.drop 1 :=
  (List.dropLast_sublist (q.drop 1)).subset

lemma interior_subset_dropLast (q : List Node) : (q.drop 1).dropLast ⊆ q.dropLast := by
  rw [interior_eq_dropLast_drop]
  exact List.drop_subset 1 q.dropLast

lemma head_mem_dropLast {q : List Node} {a : Node}
    (ha : q.head? = some a) (hlen : 2 ≤ q.length) : a ∈ q.dropLast := by
  cases q with
  | nil => simp at ha
  | cons x t =>
    cases t with
    | nil => simp at hlen
    | cons y t' =>
      obtain rfl : x = a := by simpa using ha
      simp [List.dropLast]

lemma getLast_mem_drop_one {q : List Node} {b : Node}
    (hb : q.getLast? = some b) (hlen : 2 ≤ q.length) : b ∈ q.drop 1 := by
  cases q with
  | nil => simp at hb
  | cons x t =>
    cases t with
    | nil => simp at hlen
    | cons y t' =>
      rw [List.getLast?_cons_cons] at hb
      simpa using List.mem_of_mem_getLast? hb

lemma removed_segment_false_false (q : List Node) :
    removed_segment q false false = (q.drop 1).dropLast := rfl

lemma removed_segment_true_false (q : List Node) :
    removed_segment q true false = q.dropLast := rfl

lemma removed_segment_false_true (q : List Node) :
    removed_segment q false true = q.drop 1 := rfl

lemma removed_segment_true_true (q : List Node) :
    removed_segment q true true = q := rfl

/-- Reduction of `select_best_path` in its first branch: when the sample
standard deviation of the average weights is positive, the path at the
first index of the maximum average weight is dropped from the list and
the remaining candidates are handed to `remove_paths`. -/
lemma select_best_path_pos_std (rand : ℕ) (g : Graph) (path_list : List (List Node))
    (path_length : List ℕ) (weight_avg_list : List ℚ) (s m : ℚ)
    (hs : std weight_avg_list = some s) (hpos : 0 < s)
    (hm : weight_avg_list.max? = some m)
    (hlt : weight_avg_list.indexOf m < path_list.length)
    (de ds : Bool) :
    select_best_path rand g path_list path_length weight_avg_list de ds
      = some (remove_paths g (path_list.eraseIdx (weight_avg_list.indexOf m)) de ds) := by
  simp [select_best_path, hs, hpos, hm, hlt]

lemma std_one_five : std [(1 : ℚ), 5] = some 8 := by norm_num [std, mean]

lemma max_one_five : ([(1 : ℚ), 5]).max? = some 5 := by norm_num [List.max?]

lemma indexOf_one_five : List.indexOf (5 : ℚ) [1, 5] = 1 := by
  have h : ((1 : ℚ) == 5) = false := by rw [beq_eq_false_iff_ne]; norm_num
  norm_num [List.indexOf, List.findIdx, List.findIdx.go, h]

/-- C1 counterexample: on the graph `gDirect` with candidate paths
[A,B] and [A,C,B], average weights 1 and 5 (non-zero standard deviation),
`select_best_path` leaves the graph completely unchanged: the losing
two-node candidate [A,B] has no interior node, so nothing is removed and
it is still a path of the graph — the claim that every non-authoritative
candidate path is deleted fails here. -/
theorem select_best_path_deletes_all_others_counterexample :
    select_best_path 0 gDirect [[['A'], ['B']], [['A'], ['C'], ['B']]] [2, 3] [1, 5]
        false false = some gDirect ∧
    is_path gDirect [['A'], ['B']] = true := by
  constructor
  · rw [select_best_path_pos_std 0 gDirect _ _ _ 8 5 std_one_five (by norm_num)
      max_one_five (by rw [indexOf_one_five]; norm_num)]
    rw [indexOf_one_five]
    decide
  · decide

/-- C1 (amended): with two or more candidates and non-zero standard
deviation of the average weights, `select_best_path` keeps the first
candidate attaining the maximum average weight out of the deletion list
and removes exactly the interior nodes of the other candidates: a node
survives iff it is in no other candidate's interior; every other
candidate with at least one interior node (three or more nodes) stops
being a path of the graph; and any path of the graph — the authoritative
candidate in particular — survives provided none of its nodes lies in the
interior of a deleted candidate. A two-node candidate is not deleted. -/
theorem select_best_path_retains_max_weight_path (rand : ℕ) (g : Graph)
    (path_list : List (List Node)) (path_length : List ℕ)
    (weight_avg_list : List ℚ) (s m : ℚ)
    (hs : std weight_avg_list = some s) (hpos : 0 < s)
    (hm : weight_avg_list.max? = some m)
    (hlt : weight_avg_list.indexOf m < path_list.length) :
    select_best_path rand g path_list path_length weight_avg_list false false
      = some (remove_paths g (path_list.eraseIdx (weight_avg_list.indexOf m)) false false) ∧
    (∀ x, x ∈ (remove_paths g (path_list.eraseIdx (weight_avg_list.indexOf m)) false false).nodes
        ↔ x ∈ g.nodes ∧
          ∀ q ∈ path_list.eraseIdx (weight_avg_list.indexOf m), x ∉ (q.drop 1).dropLast) ∧
    (∀ q ∈ path_list.eraseIdx (weight_avg_list.indexOf m), 3 ≤ q.length →
        is_path (remove_paths g (path_list.eraseIdx (weight_avg_list.indexOf m)) false false) q
          = false) ∧
    (∀ p, is_path g p = true →
        (∀ x ∈ p, ∀ q ∈ path_list.eraseIdx (weight_avg_list.indexOf m),
          x ∉ (q.drop 1).dropLast) →
        is_path (remove_paths g (path_list.eraseIdx (weight_avg_list.indexOf m)) false false) p
          = true) := by
  refine ⟨select_best_path_pos_std rand g _ _ _ s m hs hpos hm hlt false false, ?_, ?_, ?_⟩
  · intro x
    rw [mem_remove_paths]
    simp only [removed_segment_false_false]
  · intro q hq hq3
    have hseg : (q.drop 1).dropLast ≠ [] := by
      intro hnil
      have hlen := congrArg List.length hnil
      simp only [List.length_dropLast, List.length_drop, List.length_nil] at hlen
      omega
    obtain ⟨x, hxseg⟩ := List.exists_mem_of_ne_nil _ hseg
    have hxq : x ∈ q := List.drop_subset 1 q (interior_subset_drop_one q hxseg)
    apply is_path_eq_false_of_missing_node hxq
    intro hmem
    exact (mem_remove_paths.mp hmem).2 q hq (by rw [removed_segment_false_false]; exact hxseg)
  · intro p hp hkeep
    exact is_path_remove_paths hp
      (fun x hx q hq => by rw [removed_segment_false_false]; exact hkeep x hx q hq)

/-- C1 witness: the amended theorem applied to `gDirect` with candidates
[A,B] and [A,C,B] and average weights 1 and 5. -/
theorem select_best_path_retains_max_weight_path_witness :
    select_best_path 0 gDirect [[['A'], ['B']], [['A'], ['C'], ['B']]] [2, 3] [1, 5]
        false false
      = some (remove_paths gDirect
          ([[['A'], ['B']], [['A'], ['C'], ['B']]].eraseIdx (List.indexOf (5 : ℚ) [1, 5]))
          false false) ∧
    is_path gDirect [['A'], ['C'], ['B']] = true :=
  ⟨(select_best_path_retains_max_weight_path 0 gDirect _ _ _ 8 5 std_one_five
      (by norm_num) max_one_five (by rw [indexOf_one_five]; norm_num)).1,
   by decide⟩

/-- C4 counterexample: handing `select_best_path` an empty candidate path
list is not a tolerated no-op: `statistics.stdev` raises
`StatisticsError` on fewer than two data points, so the call fails
(`none`) instead of returning the unchanged graph. -/
theorem select_best_path_empty_candidates_counterexample :
    select_best_path 0 gBubble [] [] [] false false = none := rfl

/-- C4 (amended): an empty candidate path list makes the resolution step
raise an error (`StatisticsError` from `std` on an empty sequence) before
any mutation, rather than acting as a silent no-op; the underlying
`remove_paths` applied to an empty list is a no-op that returns the graph
unchanged. -/
theorem select_best_path_empty_candidates_raises (rand : ℕ) (g : Graph) (de ds : Bool) :
    select_best_path rand g [] [] [] de ds = none ∧ remove_paths g [] de ds = g :=
  ⟨rfl, rfl⟩

/-- C2 (code bug): `simplify_bubbles` is an unimplemented stub (`pass`)
and `solve_bubble` fails on its first statement, so no bubble is ever
resolved: on `gBubble` the ancestor/descendant pair (A, D) is joined by
two simple paths, and after `simplify_bubbles` both of them are still
there — not exactly one, as the claim requires. -/
theorem simplify_bubbles_stub_leaves_bubble :
    simplify_bubbles gBubble = gBubble ∧
    2 ≤ (all_simple_paths gBubble ['A'] ['D']).length ∧
    (all_simple_paths (simplify_bubbles gBubble) ['A'] ['D']).length = 2 ∧
    solve_bubble gBubble ['A'] ['D'] = none :=
  ⟨rfl, by decide, by decide, rfl⟩

/-- C6 (code bug): `solve_entry_tips` is an unimplemented stub (`pass`).
On `gTip` the node T has in-degree 0, its one-edge path into the main
chain has average weight 1, strictly below the 10 of the competing entry
path from S, yet after `solve_entry_tips` the graph is unchanged and T
with its edge is still present. -/
theorem solve_entry_tips_stub_leaves_tip :
    get_starting_nodes gTip = [['S'], ['T']] ∧
    path_average_weight gTip [['T'], ['A']] = some 1 ∧
    path_average_weight gTip [['S'], ['A']] = some 10 ∧
    solve_entry_tips gTip (get_starting_nodes gTip) = gTip ∧
    ['T'] ∈ (solve_entry_tips gTip (get_starting_nodes gTip)).nodes ∧
    has_edge (solve_entry_tips gTip (get_starting_nodes gTip)) ['T'] ['A'] = true := by
  refine ⟨by decide, ?_, ?_, rfl, by decide, by decide⟩
  · have h1 : (subgraph gTip [['T'], ['A']]).edges = [(['T'], ['A'], 1)] := by decide
    simp only [path_average_weight, h1]
    norm_num [mean]
  · have h2 : (subgraph gTip [['S'], ['A']]).edges = [(['S'], ['A'], 10)] := by decide
    simp only [path_average_weight, h2]
    norm_num [mean]

/-- C3: deletion contract of `remove_paths`, for any list of simple
candidate paths that share their first and last node (as the candidate
lists of bubble and tip resolution do). For each listed path: with both
flags false exactly the interior nodes are removed — the interior is
gone, both endpoints survive, and any node in no listed interior
survives; with `delete_entry_node` true the first node is removed as
well (the last still survives); with `delete_sink_node` true the last
node is removed as well (the first still survives); with both flags true
both endpoints are removed. -/
theorem remove_paths_deletion_contract (g : Graph) (l : List (List Node))
    (p : List Node) (a b : Node) (hp : p ∈ l)
    (hwf : ∀ q ∈ l, q.Nodup ∧ q.head? = some a ∧ q.getLast? = some b)
    (hlen : 2 ≤ p.length) (ha : a ∈ g.nodes) (hb : b ∈ g.nodes) :
    (∀ x ∈ (p.drop 1).dropLast, x ∉ (remove_paths g l false false).nodes) ∧
    a ∈ (remove_paths g l false false).nodes ∧
    b ∈ (remove_paths g l false false).nodes ∧
    (∀ x ∈ g.nodes, (∀ q ∈ l, x ∉ (q.drop 1).dropLast) →
        x ∈ (remove_paths g l false false).nodes) ∧
    a ∉ (remove_paths g l true false).nodes ∧
    b ∈ (remove_paths g l true false).nodes ∧
    b ∉ (remove_paths g l false true).nodes ∧
    a ∈ (remove_paths g l false true).nodes ∧
    a ∉ (remove_paths g l true true).nodes ∧
    b ∉ (remove_paths g l true true).nodes := by
  have hamem : a ∈ p := List.mem_of_mem_head? (by rw [(hwf p hp).2.1]; rfl)
  have hbmem : b ∈ p := List.mem_of_mem_getLast? (by rw [(hwf p hp).2.2]; rfl)
  refine ⟨?_, ?_, ?_, ?_, ?_, ?_, ?_, ?_, ?_, ?_⟩
  · intro x hx hmem
    exact (mem_remove_paths.mp hmem).2 p hp (by rw [removed_segment_false_false]; exact hx)
  · refine mem_remove_paths.mpr ⟨ha, fun q hq => ?_⟩
    rw [removed_segment_false_false]
    intro hxa
    exact head_not_mem_drop_one (hwf q hq).1 (hwf q hq).2.1 (interior_subset_drop_one q hxa)
  · refine mem_remove_paths.mpr ⟨hb, fun q hq => ?_⟩
    rw [removed_segment_false_false]
    intro hxb
    exact getLast_not_mem_dropLast (hwf q hq).1 (hwf q hq).2.2 (interior_subset_dropLast q hxb)
  · intro x hx hall
    exact mem_remove_paths.mpr ⟨hx, fun q hq => by
      rw [removed_segment_false_false]; exact hall q hq⟩
  · intro hmem
    exact (mem_remove_paths.mp hmem).2 p hp
      (by rw [removed_segment_true_false]; exact head_mem_dropLast (hwf p hp).2.1 hlen)
  · refine mem_remove_paths.mpr ⟨hb, fun q hq => ?_⟩
    rw [removed_segment_true_false]
    exact getLast_not_mem_dropLast (hwf q hq).1 (hwf q hq).2.2
  · intro hmem
    exact (mem_remove_paths.mp hmem).2 p hp
      (by rw [removed_segment_false_true]; exact getLast_mem_drop_one (hwf p hp).2.2 hlen)
  · refine mem_remove_paths.mpr ⟨ha, fun q hq => ?_⟩
    rw [removed_segment_false_true]
    exact head_not_mem_drop_one (hwf q hq).1 (hwf q hq).2.1
  · intro hmem
    exact (mem_remove_paths.mp hmem).2 p hp (by rw [removed_segment_true_true]; exact hamem)
  · intro hmem
    exact (mem_remove_paths.mp hmem).2 p hp (by rw [removed_segment_true_true]; exact hbmem)

/-- C3 witness: the deletion contract on the two-branch bubble
`gTwoPaths` with candidate paths [A,X,B] and [A,Y,B]. -/
theorem remove_paths_deletion_contract_witness :
    ['X'] ∉ (remove_paths gTwoPaths [[['A'], ['X'], ['B']], [['A'], ['Y'], ['B']]]
        false false).nodes ∧
    ['A'] ∈ (remove_paths gTwoPaths [[['A'], ['X'], ['B']], [['A'], ['Y'], ['B']]]
        false false).nodes ∧
    ['B'] ∈ (remove_paths gTwoPaths [[['A'], ['X'], ['B']], [['A'], ['Y'], ['B']]]
        false false).nodes ∧
    ['A'] ∉ (remove_paths gTwoPaths [[['A'], ['X'], ['B']], [['A'], ['Y'], ['B']]]
        true false).nodes ∧
    ['B'] ∉ (remove_paths gTwoPaths [[['A'], ['X'], ['B']], [['A'], ['Y'], ['B']]]
        false true).nodes := by
  have h := remove_paths_deletion_contract gTwoPaths
    [[['A'], ['X'], ['B']], [['A'], ['Y'], ['B']]] [['A'], ['X'], ['B']] ['A'] ['B']
    (by decide) (by decide) (by decide) (by decide) (by decide)
  exact ⟨h.1 ['X'] (by decide), h.2.1, h.2.2.1, h.2.2.2.2.1, h.2.2.2.2.2.2.1⟩

/-- C7: the selection policy is deterministic — the seeded random source
is threaded explicitly as the value drawn for the tie-break, so two runs
of `select_best_path` on the same input with the same drawn value (same
seed) take identical branches, including the random tie-break branch,
and produce identical output. -/
theorem resolution_deterministic_same_seed (r1 r2 : ℕ) (g : Graph)
    (path_list : List (List Node)) (path_length : List ℕ)
    (weight_avg_list : List ℚ) (de ds : Bool) (hseed : r1 = r2) :
    select_best_path r1 g path_list path_length weight_avg_list de ds
      = select_best_path r2 g path_list path_length weight_avg_list de ds := by
  rw [hseed]

/-- C7 witness: the determinism theorem applied in the random tie-break
branch — on `gTwoPaths` both candidates have average weight 1 and length
3, so both standard deviations vanish and the random branch decides. -/
theorem resolution_deterministic_same_seed_witness :
    select_best_path 7 gTwoPaths [[['A'], ['X'], ['B']], [['A'], ['Y'], ['B']]] [3, 3]
        [1, 1] false false
      = select_best_path 7 gTwoPaths [[['A'], ['X'], ['B']], [['A'], ['Y'], ['B']]] [3, 3]
        [1, 1] false false :=
  resolution_deterministic_same_seed 7 7 gTwoPaths
    [[['A'], ['X'], ['B']], [['A'], ['Y'], ['B']]] [3, 3] [1, 1] false false rfl

/-- C5 counterexample: on `gBreak` the sink list is [A, B] and the start
list is [S, X]. The pair (S, A) has no path, and the `break` then skips
sink B for start S — although (S, B) has the simple path [S, B] — so the
output holds only the contig of (X, A) and no contig at all for (S, B),
refuting both "one contig per simple path for every pair with a path" and
"a pathless pair does not affect other pairs". -/
theorem get_contigs_break_counterexample :
    has_path gBreak ['S'] ['B'] = true ∧
    all_simple_paths gBreak ['S'] ['B'] = [[['S'], ['B']]] ∧
    get_contigs gBreak (get_starting_nodes gBreak) (get_sink_nodes gBreak)
      = some [(['X', 'A'], 2)] :=
  ⟨by decide, by decide, by decide⟩

/-- C5 (amended): a (start, sink) pair with no path contributes zero
contigs and raises no error, but it terminates the scan of the remaining
sink nodes for that start node (everything after the unreachable sink in
the sink list yields nothing for this start); start nodes are processed
independently, so the contigs of other start nodes are unaffected. -/
theorem get_contigs_unreachable_sink :
    (∀ (g : Graph) (st en : Node) (rest : List Node),
      has_path g st en = false → sink_scan g st (en :: rest) = some []) ∧
    (∀ (g : Graph) (ending : List Node) (st : Node) (rest : List Node)
        (a b : List (List Char × ℕ)),
      sink_scan g st ending = some a → start_scan g ending rest = some b →
      start_scan g ending (st :: rest) = some (a ++ b)) := by
  constructor
  · intro g st en rest h
    simp [sink_scan, h]
  · intro g ending st rest a b ha hb
    simp [start_scan, ha, hb]

/-- C5 witness: on `gBreak`, the unreachable sink A makes start S
contribute nothing at all, while start X's contig list is concatenated
unaffected. -/
theorem get_contigs_unreachable_sink_witness :
    sink_scan gBreak ['S'] [['A'], ['B']] = some [] ∧
    start_scan gBreak [['A'], ['B']] [['S'], ['X']] = some ([] ++ [(['X', 'A'], 2)]) := by
  refine ⟨get_contigs_unreachable_sink.1 gBreak ['S'] ['A'] [['B']] (by decide), ?_⟩
  exact get_contigs_unreachable_sink.2 gBreak [['A'], ['B']] ['S'] [['X']] []
    [(['X', 'A'], 2)]
    (get_contigs_unreachable_sink.1 gBreak ['S'] ['A'] [['B']] (by decide))
    (by decide)

/-- C8: for k-mer size between 1 and the read length, `cut_kmer` yields
exactly `L - k + 1` substrings in offset order, each of length `k`, and
consecutive k-mers overlap in `k - 1` characters (dropping the first
character of one gives the first `k - 1` characters of the next); for
`k` larger than the read length it yields the empty sequence. -/
theorem cut_kmer_spec (read : List Char) (k : ℕ) :
    (1 ≤ k → k ≤ read.length →
      (cut_kmer read k).length = read.length - k + 1 ∧
      (∀ w ∈ cut_kmer read k, w.length = k) ∧
      (∀ i : ℕ, i + 1 < (cut_kmer read k).length →
        ((cut_kmer read k).getD i []).drop 1
          = ((cut_kmer read k).getD (i + 1) []).take (k - 1))) ∧
    (read.length < k → cut_kmer read k = []) := by
  have hgd : ∀ j : ℕ, j < (((read.length : ℤ) - k + 1).toNat) →
      (cut_kmer read k).getD j [] = (read.drop j).take k := by
    intro j hj
    rw [cut_kmer, List.getD_eq_getElem?_getD, List.getElem?_map, List.getElem?_range hj]
    rfl
  have hlencut : (cut_kmer read k).length = (((read.length : ℤ) - k + 1).toNat) := by
    simp [cut_kmer]
  constructor
  · intro hk1 hkL
    refine ⟨?_, ?_, ?_⟩
    · rw [hlencut]; omega
    · intro w hw
      simp only [cut_kmer, List.mem_map, List.mem_range] at hw
      obtain ⟨i, hi, rfl⟩ := hw
      rw [List.length_take, List.length_drop]
      have hik : i ≤ read.length - k := by omega
      rw [inf_of_le_left (by omega : k ≤ read.length - i)]
    · intro i hi
      rw [hlencut] at hi
      rw [hgd i (by omega), hgd (i + 1) hi,
        List.drop_take, List.drop_drop, List.take_take,
        inf_of_le_left (Nat.sub_le k 1)]
  · intro hLk
    have h0 : (((read.length : ℤ) - k + 1).toNat) = 0 := by omega
    simp [cut_kmer, h0]

/-- C8 witness: the k-mer contract evaluated on the read ACGT with k = 2,
and the out-of-range case on a length-2 read with k = 5. -/
theorem cut_kmer_spec_witness :
    (cut_kmer ['A', 'C', 'G', 'T'] 2).length = 3 ∧ cut_kmer ['A', 'C'] 5 = [] := by
  constructor
  · have h := ((cut_kmer_spec ['A', 'C', 'G', 'T'] 2).1 (by norm_num) (by decide)).1
    simpa using h
  · exact (cut_kmer_spec ['A', 'C'] 5).2 (by decide)

lemma extend_contig_length (t : List Node) :
    ∀ (c : List Char), (∀ s ∈ t, s ≠ []) →
      ∃ c', extend_contig c t = some c' ∧ c'.length = c.length + t.length := by
  induction t with
  | nil => exact fun c _ => ⟨c, rfl, by simp⟩
  | cons s rest ih =>
    intro c h
    have hs : s ≠ [] := h s (List.mem_cons_self s rest)
    have hlast : s.getLast? = some (s.getLast hs) := List.getLast?_eq_getLast s hs
    obtain ⟨c', hc', hlen⟩ :=
      ih (c ++ [s.getLast hs]) (fun x hx => h x (List.mem_cons_of_mem s hx))
    refine ⟨c', ?_, ?_⟩
    · simp only [extend_contig, hlast]
      exact hc'
    · rw [hlen]
      have hone : (c ++ [s.getLast hs]).length = c.length + 1 := by simp
      rw [hone]
      simp only [List.length_cons]
      omega

/-- C9: along a nonempty path whose nodes all have length `k - 1`
(with `k ≥ 2`, so nodes are nonempty and taking a last character cannot
fail), the reconstructed contig exists and has length
`(k - 1) + (n - 1)` for `n` nodes. -/
theorem contig_reconstruction_length (k : ℕ) (p : List Node) (hk : 2 ≤ k)
    (hne : p ≠ []) (hnode : ∀ s ∈ p, s.length = k - 1) :
    ∃ c, contig_of_path p = some c ∧ c.length = (k - 1) + (p.length - 1) := by
  cases p with
  | nil => exact absurd rfl hne
  | cons first rest =>
    have hnonempty : ∀ s ∈ rest, s ≠ [] := by
      intro s hs hnil
      have hl := hnode s (List.mem_cons_of_mem first hs)
      rw [hnil] at hl
      simp at hl
      omega
    obtain ⟨c, hc, hlen⟩ := extend_contig_length rest first hnonempty
    refine ⟨c, hc, ?_⟩
    rw [hlen, hnode first (List.mem_cons_self first rest)]
    simp only [List.length_cons]
    omega

/-- C9 witness: the round trip on the path AB → BC with k = 3: the
contig ABC has length (3 - 1) + (2 - 1) = 3. -/
theorem contig_reconstruction_length_witness :
    ∃ c, contig_of_path [['A', 'B'], ['B', 'C']] = some c ∧ c.length = 3 := by
  obtain ⟨c, h1, h2⟩ := contig_reconstruction_length 3 [['A', 'B'], ['B', 'C']]
    (by norm_num) (by decide) (by decide)
  exact ⟨c, h1, by simpa using h2⟩

lemma contigs_of_paths_snd (ps : List (List Node)) :
    ∀ (res : List (List Char × ℕ)), contigs_of_paths ps = some res →
      ∀ x ∈ res, x.2 = x.1.length := by
  induction ps with
  | nil =>
    intro res h x hx
    simp only [contigs_of_paths, Option.some.injEq] at h
    subst h
    simp at hx
  | cons p ps ih =>
    intro res h x hx
    cases hc : contig_of_path p with
    | none =>
      simp only [contigs_of_paths, hc] at h
      exact Option.noConfusion h
    | some c =>
      cases hr : contigs_of_paths ps with
      | none =>
        simp only [contigs_of_paths, hc, hr] at h
        exact Option.noConfusion h
      | some rest =>
        simp only [contigs_of_paths, hc, hr, Option.some.injEq] at h
        subst h
        rcases List.mem_cons.mp hx with rfl | hx'
        · rfl
        · exact ih rest hr x hx'

lemma sink_scan_snd (g : Graph) (st : Node) (ending : List Node) :
    ∀ res, sink_scan g st ending = some res → ∀ x ∈ res, x.2 = x.1.length := by
  induction ending with
  | nil =>
    intro res h x hx
    simp only [sink_scan, Option.some.injEq] at h
    subst h
    simp at hx
  | cons en rest ih =>
    intro res h x hx
    cases hhp : has_path g st en with
    | false =>
      simp only [sink_scan, hhp, Bool.false_eq_true, if_false, Option.some.injEq] at h
      subst h
      simp at hx
    | true =>
      cases hc : contigs_of_paths (all_simple_paths g st en) with
      | none =>
        simp only [sink_scan, hhp, if_true, hc] at h
        exact Option.noConfusion h
      | some cs =>
        cases hr : sink_scan g st rest with
        | none =>
          simp only [sink_scan, hhp, if_true, hc, hr] at h
          exact Option.noConfusion h
        | some more =>
          simp only [sink_scan, hhp, if_true, hc, hr, Option.some.injEq] at h
          subst h
          rcases List.mem_append.mp hx with hx' | hx'
          · exact contigs_of_paths_snd _ cs hc x hx'
          · exact ih more hr x hx'

lemma start_scan_snd (g : Graph) (ending : List Node) :
    ∀ (starting : List Node) (res : List (List Char × ℕ)),
      start_scan g ending starting = some res → ∀ x ∈ res, x.2 = x.1.length := by
  intro starting
  induction starting with
  | nil =>
    intro res h x hx
    simp only [start_scan, Option.some.injEq] at h
    subst h
    simp at hx
  | cons st rest ih =>
    intro res h x hx
    cases ha : sink_scan g st ending with
    | none =>
      simp only [start_scan, ha] at h
      exact Option.noConfusion h
    | some a =>
      cases hb : start_scan g ending rest with
      | none =>
        simp only [start_scan, ha, hb] at h
        exact Option.noConfusion h
      | some b =>
        simp only [start_scan, ha, hb, Option.some.injEq] at h
        subst h
        rcases List.mem_append.mp hx with hx' | hx'
        · exact sink_scan_snd g st ending a ha x hx'
        · exact ih b hb x hx'

/-- C10: whenever `get_contigs` returns a result, every entry of the
returned list is a pair whose second component is the length of the
string in its first component. -/
theorem get_contigs_length_field_correct (g : Graph) (starting ending : List Node)
    (res : List (List Char × ℕ)) (h : get_contigs g starting ending = some res) :
    ∀ x ∈ res, x.2 = x.1.length :=
  start_scan_snd g ending starting res h

/-- C10 witness: the invariant instantiated on the single contig produced
by `gBreak` from start X to sink A. -/
theorem get_contigs_length_field_correct_witness :
    ((['X', 'A'], 2) : List Char × ℕ).2 = (['X', 'A'] : List Char).length :=
  get_contigs_length_field_correct gBreak [['X']] [['A']] [(['X', 'A'], 2)]
    (by decide) (['X', 'A'], 2) (by decide)

end DeBruijn
